import Mathlib

/-
Verification of the data/selection/geometry core of the salary-dashboard
repository (src/app/main.js and the country-code conversion module).

The JavaScript is shallowly embedded:
* CSV rows become Lean structures; JS numbers become `ℚ` (the dashboard's
  arithmetic never overflows or relies on float rounding, except where noted);
* `Object.fromEntries(list)` lookups become `lastLookup` (later entries of
  the list overwrite earlier ones, and a missing key yields `undefined`,
  modelled as `none`);
* `Array.from(new Set(l))` becomes `firstDedup` (first-appearance order);
* JS `undefined` flowing through a computation is modelled with `Option`.
-/

/-- Lookup in the object built by `Object.fromEntries` from a list of
key/value pairs: the LAST pair with the requested key wins, and a missing
key gives `undefined` (`none`). -/
def lastLookup {α β : Type} [DecidableEq α] : List (α × β) → α → Option β
  | [], _ => none
  | e :: t, k =>
    match lastLookup t k with
    | some v => some v
    | none => if e.1 = k then some e.2 else none

/-- Country reference-table row (`iso-codes-map.csv`); `country_id` arrives as
a string and is coerced with the unary `+` in the source, so it is a numeral. -/
structure IsoRow where
  country_code_alpha2 : String
  country_code_alpha3 : String
  country_id : ℕ
  country_name : String
deriving DecidableEq, Repr

/-- Lookup map `alpha2 → id` (`main.js` line 73 and
`initCountryCodeConversionMaps`). -/
def isoCodeToIdMap (t : List IsoRow) (c : String) : Option ℕ :=
  lastLookup (t.map fun r => (r.country_code_alpha2, r.country_id)) c

/-- Lookup map `id → alpha2` (`main.js` line 74). -/
def idToIsoCodeMap (t : List IsoRow) (i : ℕ) : Option String :=
  lastLookup (t.map fun r => (r.country_id, r.country_code_alpha2)) i

/-- Lookup map `alpha2 → name` (`main.js` line 75). -/
def isoCodeToNameMap (t : List IsoRow) (c : String) : Option String :=
  lastLookup (t.map fun r => (r.country_code_alpha2, r.country_name)) c

/-- Lookup map `alpha3 → id` (`initCountryCodeConversionMaps`). -/
def ISO3ToIdMap (t : List IsoRow) (c : String) : Option ℕ :=
  lastLookup (t.map fun r => (r.country_code_alpha3, r.country_id)) c

/-- Lookup map `alpha2 → alpha3` (`initCountryCodeConversionMaps`). -/
def ISO2ToISO3Map (t : List IsoRow) (c : String) : Option String :=
  lastLookup (t.map fun r => (r.country_code_alpha2, r.country_code_alpha3)) c

/-- Lookup map `alpha3 → alpha2` (`initCountryCodeConversionMaps`). -/
def ISO3ToISO2Map (t : List IsoRow) (c : String) : Option String :=
  lastLookup (t.map fun r => (r.country_code_alpha3, r.country_code_alpha2)) c

/-- Reference table used to instantiate theorems with hypotheses. -/
def isoTableEx : List IsoRow :=
  [⟨"US", "USA", 840, "United States"⟩, ⟨"CA", "CAN", 124, "Canada"⟩]

/-- First-appearance deduplication, as `Array.from(new Set(l))` and the key
order of `d3.rollup` produce it. -/
def firstDedup {α : Type} [DecidableEq α] : List α → List α
  | [] => []
  | a :: t => a :: (firstDedup t).filter (fun b => b ≠ a)

/-- One row of `ds_salaries.csv` (only the fields the dashboard uses; numeric
fields arrive as strings and are coerced with unary `+`). -/
structure SalaryRow where
  salary_in_usd : ℚ
  experience_level : String
  remote_ratio : ℚ
  company_location : String
  employee_residence : String
deriving DecidableEq, Repr

/-- Salary-range binning for the Sankey diagram (`binSalaries`). -/
def binSalaries (salary : ℚ) : String :=
  if salary < 50000 then "< 50k"
  else if 50000 ≤ salary ∧ salary < 100000 then "50k-100k"
  else if 100000 ≤ salary ∧ salary < 150000 then "100k-150k"
  else if 150000 ≤ salary ∧ salary < 200000 then "150k-200k"
  else "200k+"

/-- Experience-level display names (`experienceLevelMap`). A code outside the
table gives JS `undefined`; the Sankey code then stringifies it into the node
key `undefined`, so it behaves exactly like a fifth label, modelled here as
the string "undefined". -/
def experienceLevelName (code : String) : String :=
  if code = "SE" then "Senior"
  else if code = "MI" then "Mid Level"
  else if code = "EN" then "Entry Level"
  else if code = "EX" then "Executive"
  else "undefined"

/-- Work-type binning (`binWorkTypes`). -/
def binWorkTypes (remoteRatio : ℚ) : String :=
  if remoteRatio ≤ 33 then "in-office"
  else if 33 < remoteRatio ∧ remoteRatio ≤ 66 then "hybrid"
  else "remote"

/-- One element of `parallelData`: the stage triple feeding the Sankey. -/
structure PRow where
  salaryBin : String
  experienceLevel : String
  workType : String
deriving DecidableEq, Repr

/-- Stage triple of one salary record (`main.js` lines 66-70). -/
def mkParallelRow (r : SalaryRow) : PRow :=
  { salaryBin := binSalaries r.salary_in_usd,
    experienceLevel := experienceLevelName r.experience_level,
    workType := binWorkTypes r.remote_ratio }

/-- One element of `mapData` (`main.js` lines 77-82); a country code missing
from the reference table resolves to `undefined` (`none`). -/
structure MapRow where
  salary_in_usd : ℚ
  employee_country : Option ℕ
  country : Option ℕ
  iso2 : String
deriving DecidableEq, Repr

/-- Map-record constructor (`main.js` lines 77-82). -/
def mkMapRow (t : List IsoRow) (r : SalaryRow) : MapRow :=
  { salary_in_usd := r.salary_in_usd,
    employee_country := isoCodeToIdMap t r.employee_residence,
    country := isoCodeToIdMap t r.company_location,
    iso2 := r.company_location }

/-- Selection filter exactly as the source writes it (`main.js` lines 38-40:
ternary on `appState.selectedCountryIso2`). -/
def filteredSalaryData (data : List SalaryRow) (sel : Option String) : List SalaryRow :=
  data.filter fun r =>
    match sel with
    | some c => r.company_location = c
    | none => true

/-- Record subset "whose country field matches the selection; when no country
is selected, the full record set is used" — stated from the spec's words, for
comparison with the source's filter. -/
def specFiltered (data : List SalaryRow) (sel : Option String) : List SalaryRow :=
  match sel with
  | none => data
  | some c => data.filter fun r => r.company_location = c

/-- Derived datasets recomputed by `updateDashboard` on every render. -/
structure DashboardData where
  histogramValues : List ℚ
  parallelRows : List PRow
  mapRows : List MapRow
deriving DecidableEq, Repr

/-- Data-derivation part of `updateDashboard` (`main.js` lines 31-87):
`filteredSalaryData` feeds `salaryHistogramData` and `parallelData`, while
`mapData` is built from the unfiltered `salaryData`. -/
def updateDashboard (salaryData : List SalaryRow) (t : List IsoRow)
    (sel : Option String) : DashboardData :=
  let filtered := filteredSalaryData salaryData sel
  { histogramValues := filtered.map fun r => r.salary_in_usd,
    parallelRows := filtered.map mkParallelRow,
    mapRows := salaryData.map (mkMapRow t) }

/-- Insertion into an ascending-sorted list. -/
def insertSorted (x : ℚ) : List ℚ → List ℚ
  | [] => [x]
  | y :: t => if x ≤ y then x :: y :: t else y :: insertSorted x t

/-- Ascending numeric sort, as `d3.quantile` sorts its input. -/
def sortAsc (l : List ℚ) : List ℚ := l.foldr insertSorted []

/-- Statistical median as `d3.median` computes it (quantile 0.5 with linear
interpolation: the middle element for odd length, the mean of the two middle
elements for even length). -/
def d3median (l : List ℚ) : ℚ :=
  let s := sortAsc l
  if s.length % 2 = 1 then s.getD (s.length / 2) 0
  else (s.getD (s.length / 2 - 1) 0 + s.getD (s.length / 2) 0) / 2

/-- Key sequence of `d3.rollup(mapData, ..., d => d.country)`: distinct keys
in first-appearance order (a record whose country code had no table entry
contributes the key `undefined` = `none`). -/
def rollupKeys (rows : List MapRow) : List (Option ℕ) :=
  firstDedup (rows.map fun r => r.country)

/-- The rollup map `country → median salary` (`countrySalaries` in
`displayMap`, `main.js` lines 381-385), as an association list in key order. -/
def countrySalaries (rows : List MapRow) : List (Option ℕ × ℚ) :=
  (rollupKeys rows).map fun k =>
    (k, d3median ((rows.filter fun r => r.country = k).map fun r => r.salary_in_usd))

/-- `countrySalaries.get(+d.id)`: JS `Map.get` with a numeric key. -/
def countrySalariesGet (rows : List MapRow) (c : ℕ) : Option ℚ :=
  ((countrySalaries rows).find? fun kv => kv.1 = some c).map fun kv => kv.2

/-- Two-country data set: one US record (salary 100000), one CA record
(salary 50000). -/
def salaryDataTwo : List SalaryRow :=
  [⟨100000, "SE", 0, "US", "US"⟩, ⟨50000, "EN", 100, "CA", "CA"⟩]

/-- Selection facet of the mutable `appState` in `main.js` (name `none`
models a JS `undefined` display name). -/
structure DashState where
  selectedCountryIso2 : Option String
  selectedCountryName : Option String
deriving DecidableEq, Repr

/-- The unset/startup selection (`main.js` lines 5-10), also assigned by the
no-data and deselect branches of the click handler. -/
def globalState : DashState := ⟨none, some "Global"⟩

/-- Truthiness of `color(countrySalaries.get(+d.id))` (`main.js` line 412):
the d3 sequential scale returns `undefined` (falsy) exactly when its input is
missing or NaN and a CSS color string (truthy) otherwise; with `ℚ` salaries a
group median is never NaN, so the test is membership of the clicked id in the
median-salary rollup built from the full `mapData`. -/
def hasSalaryData (t : List IsoRow) (data : List SalaryRow) (cid : ℕ) : Bool :=
  (countrySalariesGet (data.map (mkMapRow t)) cid).isSome

/-- `isoCodeToIdMap[appState.selectedCountryIso2]` (`main.js` line 420); a
`null` selection looks up no row, yielding `undefined`. -/
def selectedIdOf (t : List IsoRow) (s : DashState) : Option ℕ :=
  s.selectedCountryIso2.bind (isoCodeToIdMap t)

/-- Click handler on a map country (`main.js` lines 409-433); `cid` is the
clicked feature id `+d.id`. -/
def displayMapClick (t : List IsoRow) (data : List SalaryRow) (cid : ℕ)
    (s : DashState) : DashState :=
  if hasSalaryData t data cid = false then globalState
  else if selectedIdOf t s = some cid then globalState
  else
    ⟨idToIsoCodeMap t cid, (idToIsoCodeMap t cid).bind (isoCodeToNameMap t)⟩

/-- Single-record data set: one US record (salary 100000), so that id 124
(CA) has no salary data. -/
def salaryDataOne : List SalaryRow := [⟨100000, "SE", 0, "US", "US"⟩]

/-- Histogram bin-count configuration constant (`main.js` line 1). -/
def HISTOGRAM_NUM_BINS : ℕ := 30

/-- Over-provisioned histogram domain top
`Math.ceil(maxValue / N) * (N + 1)` (`main.js` line 115). -/
def maxBinValue (M : ℚ) : ℚ :=
  ((⌈M / (HISTOGRAM_NUM_BINS : ℚ)⌉ * ((HISTOGRAM_NUM_BINS : ℤ) + 1) : ℤ) : ℚ)

/-- `d3.tickIncrement(0, stop, count)` for a step of at least one (the
histogram domain top is ≥ 31, so the fractional-step branch never runs).
`Math.floor(Math.log10(step))` is `Int.log 10`, and the comparisons of the
error ratio with `Math.sqrt(50)`, `Math.sqrt(10)`, `Math.sqrt(2)` are
expressed on squares, which is equivalent since the ratio is nonnegative. -/
def tickError (stop : ℚ) (count : ℕ) : ℚ :=
  stop / (count : ℚ) / (10 : ℚ) ^ Int.log 10 (stop / (count : ℚ))

/-- Factor chosen by `d3.tickIncrement` from the error ratio. -/
def tickFactor (stop : ℚ) (count : ℕ) : ℚ :=
  if 50 ≤ tickError stop count ^ 2 then 10
  else if 10 ≤ tickError stop count ^ 2 then 5
  else if 2 ≤ tickError stop count ^ 2 then 2 else 1

def tickIncrement (stop : ℚ) (count : ℕ) : ℚ :=
  tickFactor stop count * (10 : ℚ) ^ Int.log 10 (stop / (count : ℚ))

/-- Width of the histogram's tick bins:
`d3.histogram().domain([0, maxBinValue]).thresholds(x.ticks(N))` produces the
thresholds `step, 2*step, ..., K*step` (the tick at 0 is dropped because it
is not inside the domain). -/
def histStep (M : ℚ) : ℚ := tickIncrement (maxBinValue M) HISTOGRAM_NUM_BINS

/-- Index `K` of the final bin: with thresholds `step .. K*step`,
`K = ⌊maxBinValue/step⌋`, the bins are `[0, step), [step, 2*step), ...,
[(K-1)*step, K*step), [K*step, maxBinValue]`. -/
def lastBinIdx (M : ℚ) : ℕ := (⌊maxBinValue M / histStep M⌋).toNat

/-- Bin assignment of `d3.histogram` (a `bisectRight` over the thresholds:
the index is the number of thresholds that are ≤ the value). -/
def binIndex (M v : ℚ) : ℕ := min (lastBinIdx M) (⌊v / histStep M⌋.toNat)

/-- Membership of value `v` in bin `i` of the salary histogram whose maximum
data value is `M`: half-open tick intervals, except the final bin which is
closed at the domain top. -/
def inBin (M : ℚ) (i : ℕ) (v : ℚ) : Prop :=
  (i < lastBinIdx M ∧ (i : ℚ) * histStep M ≤ v ∧ v < ((i : ℚ) + 1) * histStep M)
  ∨ (i = lastBinIdx M ∧ (i : ℚ) * histStep M ≤ v ∧ v ≤ maxBinValue M)

/-- Index assigned to a node id by the Sankey's `nodeMap`
(`Object.fromEntries(nodes.map(({id}, index) => [id, index]))`): with
duplicate ids, the LAST occurrence wins. -/
def lastIdxOf {α : Type} [DecidableEq α] : List α → α → Option ℕ
  | [], _ => none
  | a :: t, x =>
    match lastIdxOf t x with
    | some i => some (i + 1)
    | none => if a = x then some 0 else none

/-- Node list of the Sankey diagram (`main.js` lines 206-210): the per-stage
distinct labels, stages concatenated. -/
def sankeyNodes (data : List PRow) : List String :=
  firstDedup (data.map fun r => r.salaryBin)
    ++ firstDedup (data.map fun r => r.experienceLevel)
    ++ firstDedup (data.map fun r => r.workType)

/-- `nodeMap[label]` (`main.js` line 211). -/
def nodeIdx (data : List PRow) (x : String) : Option ℕ :=
  lastIdxOf (sankeyNodes data) x

/-- Entry `linkMatrix[i][j]` after the counting loop (`main.js` lines
213-218): each record increments the cell of its (salaryBin, experienceLevel)
hop and the cell of its (experienceLevel, workType) hop. -/
def linkWeight (data : List PRow) (i j : ℕ) : ℕ :=
  (data.filter fun r =>
      nodeIdx data r.salaryBin = some i ∧ nodeIdx data r.experienceLevel = some j).length
  + (data.filter fun r =>
      nodeIdx data r.experienceLevel = some i ∧ nodeIdx data r.workType = some j).length

/-- A weighted directed Sankey edge. -/
structure SankeyLink where
  source : ℕ
  target : ℕ
  value : ℕ
deriving DecidableEq, Repr

/-- Link list (`main.js` lines 220-232): all matrix cells with positive
weight, in row-major order. -/
def sankeyLinks (data : List PRow) : List SankeyLink :=
  (List.range (sankeyNodes data).length).flatMap fun i =>
    (List.range (sankeyNodes data).length).filterMap fun j =>
      if 0 < linkWeight data i j then some ⟨i, j, linkWeight data i j⟩ else none

/-- Number of records with the given (salaryBin, experienceLevel) pair. -/
def count12 (data : List PRow) (a b : String) : ℕ :=
  (data.filter fun r => r.salaryBin = a ∧ r.experienceLevel = b).length

/-- Number of records with the given (experienceLevel, workType) pair. -/
def count23 (data : List PRow) (b c : String) : ℕ :=
  (data.filter fun r => r.experienceLevel = b ∧ r.workType = c).length

/-- The three stages use pairwise-disjoint label sets — true of the actual
upstream binning functions (salary ranges, experience names, work types). -/
def stagesDisjoint (data : List PRow) : Prop :=
  (∀ r ∈ data, ∀ r' ∈ data, r.salaryBin ≠ r'.experienceLevel)
  ∧ (∀ r ∈ data, ∀ r' ∈ data, r.salaryBin ≠ r'.workType)
  ∧ (∀ r ∈ data, ∀ r' ∈ data, r.experienceLevel ≠ r'.workType)

instance (data : List PRow) : Decidable (stagesDisjoint data) := by
  unfold stagesDisjoint
  infer_instance

/-- Node list the claim's wording prescribes: the distinct labels across the
three stages in global first-appearance order over the record sequence. -/
def specNodesFirstAppearance (data : List PRow) : List String :=
  firstDedup (data.flatMap fun r => [r.salaryBin, r.experienceLevel, r.workType])

/-- Spec's own example: two identical records both binning to
("50k-100k", "Senior", "remote"). -/
def sankeyTwoRecords : List PRow :=
  [⟨"50k-100k", "Senior", "remote"⟩, ⟨"50k-100k", "Senior", "remote"⟩]

/-- A linear ring: the vertex list of one polygon boundary (projected planar
coordinates, modelled exactly). -/
abbrev LinearRing : Type := List (ℚ × ℚ)

/-- One polygon: its outer ring followed by any hole rings, as in GeoJSON
`Polygon.coordinates`. -/
abbrev PolyRings : Type := List (List (ℚ × ℚ))

/-- Cross term of one edge in `d3.polygonArea`:
`a[1] * b[0] - a[0] * b[1]`. -/
def cross (a b : ℚ × ℚ) : ℚ := a.2 * b.1 - a.1 * b.2

/-- Sum of the cross terms of the consecutive (non-wrapping) edges. -/
def linSum : List (ℚ × ℚ) → ℚ
  | [] => 0
  | [_] => 0
  | a :: b :: t => cross a b + linSum (b :: t)

/-- Wrap-around edge term from the last vertex back to the first. -/
def closingTerm (r : List (ℚ × ℚ)) : ℚ :=
  match r.getLast?, r.head? with
  | some z, some a => cross z a
  | _, _ => 0

/-- `d3.polygonArea`: half the signed shoelace sum over the cyclic edge
sequence (the source iterates pairs `(points[n-1], points[0]),
(points[0], points[1]), ...`). -/
def polygonArea (r : List (ℚ × ℚ)) : ℚ := (linSum r + closingTerm r) / 2

/-- `Math.abs(d3.polygonArea(poly[0]))` (`main.js` line 343): the absolute
planar area of a polygon's outer ring. -/
def polyOuterArea (p : PolyRings) : ℚ := |polygonArea (p.headD [])|

/-- One step of the largest-polygon loop (`main.js` lines 336-348): the
accumulator is `none` while `maxArea` is still `-Infinity` (every real area
beats it), and the comparison `polyArea > maxArea` is strict. -/
def pickLargest (acc : Option (ℚ × PolyRings)) (p : PolyRings) :
    Option (ℚ × PolyRings) :=
  match acc with
  | none => some (polyOuterArea p, p)
  | some (m, q) => if polyOuterArea p > m then some (polyOuterArea p, p) else some (m, q)

/-- The polygon selected from a multi-polygon's list (first strict maximum of
the absolute outer-ring areas). -/
def selectLargest (ps : List PolyRings) : Option PolyRings :=
  (ps.foldl pickLargest none).map fun x => x.2

/-- Country geometry as the code distinguishes it (`geom.type === 'Polygon'`
versus multi-polygon). -/
inductive Geometry where
  | polygon (coordinates : PolyRings)
  | multiPolygon (coordinates : List PolyRings)

/-- `d.largestPolygon.coordinates` (`main.js` lines 333-354): a single
polygon is taken as-is; for a multi-polygon the ring list of maximal absolute
outer area is selected (`none` models the `null` of an empty list). -/
def largestPolygon : Geometry → Option PolyRings
  | .polygon c => some c
  | .multiPolygon ps => selectLargest ps

/-- Per-ring vertex-order reversal of one polygon. -/
def reverseRings (p : PolyRings) : PolyRings :=
  List.map List.reverse p

/-- Unit square at the origin (absolute area 1). -/
def squareA : PolyRings := [[(0, 0), (1, 0), (1, 1), (0, 1)]]

/-- Unit square shifted right (absolute area 1, distinct ring). -/
def squareB : PolyRings := [[(2, 0), (3, 0), (3, 1), (2, 1)]]

/-- Square of side 2 (absolute area 4). -/
def squareC : PolyRings := [[(0, 0), (2, 0), (2, 2), (0, 2)]]

/-- A JS number that may be NaN (`none` models NaN, from degenerate or empty
projected geometry). -/
abbrev JSNum := Option ℚ

/-- Label x coordinate (`main.js` lines 551-553):
`isNaN(d.centroid[0]) ? 0 : d.centroid[0]`. -/
def labelX (cx : JSNum) : ℚ := cx.getD 0

/-- Label y coordinate (`main.js` lines 554-556). -/
def labelY (cy : JSNum) : ℚ := cy.getD 0

/-- NaN-respecting comparison `screenArea > 1500`: every comparison with NaN
is false in JS. -/
def jsGTThreshold (a : JSNum) (threshold : ℚ) : Bool :=
  match a with
  | none => false
  | some x => decide (threshold < x)

/-- Label opacity (`main.js` lines 562-566): the selection-dependent display
opacity when the projected screen area of the dominant polygon clears the
1500 threshold, and 0 (hidden) otherwise. Total on all inputs — a degenerate
geometry can only change the returned numbers, never abort rendering. -/
def labelOpacity (screenArea : JSNum) (displayOpacity : ℚ) : ℚ :=
  if jsGTThreshold screenArea 1500 then displayOpacity else 0

/-- Remote-employee linkage counts (`main.js` lines 362-378): for a company
country among the drawn map features, the number of records linking it to
each employee-residence country (`employee_countries`); countries not in the
topology accumulate nothing. -/
def employeeCountryCount (rows : List MapRow) (featureIds : List ℕ)
    (target : ℕ) (home : Option ℕ) : ℕ :=
  if target ∈ featureIds then
    (rows.filter fun r => r.country = some target ∧ r.employee_country = home).length
  else 0

/-- The four derived per-view datasets of one render pass. -/
structure AggregatedViews where
  histValues : List ℚ
  flowLinks : List SankeyLink
  medianByCountry : ℕ → Option ℚ
  linkage : ℕ → Option ℕ → ℕ

/-- All aggregated view data produced for a given selection state. -/
def aggregatedViewsOf (salaryData : List SalaryRow) (t : List IsoRow)
    (featureIds : List ℕ) (s : DashState) : AggregatedViews :=
  let d := updateDashboard salaryData t s.selectedCountryIso2
  { histValues := d.histogramValues,
    flowLinks := sankeyLinks d.parallelRows,
    medianByCountry := fun c => countrySalariesGet d.mapRows c,
    linkage := fun c h => employeeCountryCount d.mapRows featureIds c h }

/-- One selection transition of the click state machine, one constructor per
branch of the `displayMap` click handler. -/
inductive ClickStep (t : List IsoRow) (data : List SalaryRow) :
    DashState → ℕ → DashState → Prop
  | noData {s : DashState} {cid : ℕ} :
      hasSalaryData t data cid = false →
      ClickStep t data s cid globalState
  | deselect {s : DashState} {cid : ℕ} :
      hasSalaryData t data cid = true → selectedIdOf t s = some cid →
      ClickStep t data s cid globalState
  | select {s : DashState} {cid : ℕ} :
      hasSalaryData t data cid = true → selectedIdOf t s ≠ some cid →
      ClickStep t data s cid
        ⟨idToIsoCodeMap t cid, (idToIsoCodeMap t cid).bind (isoCodeToNameMap t)⟩

/-- Run of a click sequence, recording the state after every click. -/
inductive ClickRun (t : List IsoRow) (data : List SalaryRow) :
    DashState → List ℕ → List DashState → Prop
  | nil (s : DashState) : ClickRun t data s [] []
  | cons {s s' : DashState} {c : ℕ} {cs : List ℕ} {hist : List DashState} :
      ClickStep t data s c s' → ClickRun t data s' cs hist →
      ClickRun t data s (c :: cs) (s' :: hist)

theorem lastLookup_map_spec {α β γ : Type} [DecidableEq α] (f : γ → α) (g : γ → β)
    (t : List γ) (k : α) (v : β)
    (h : lastLookup (t.map fun r => (f r, g r)) k = some v) :
    ∃ r ∈ t, f r = k ∧ g r = v := by
  induction t with
  | nil => simp [lastLookup] at h
  | cons a t ih =>
    simp only [List.map_cons, lastLookup] at h
    cases hT : lastLookup (t.map fun r => (f r, g r)) k with
    | some w =>
      rw [hT] at h
      obtain ⟨r, hr, hf, hg⟩ := ih (hT.trans (by simpa using h))
      exact ⟨r, List.mem_cons_of_mem a hr, hf, hg⟩
    | none =>
      rw [hT] at h
      by_cases hk : f a = k
      · refine ⟨a, List.mem_cons_self a t, hk, ?_⟩
        simp [hk] at h
        exact h
      · simp [hk] at h

theorem lastLookup_map_isSome {α β γ : Type} [DecidableEq α] (f : γ → α) (g : γ → β)
    (t : List γ) (k : α) (h : ∃ r ∈ t, f r = k) :
    (lastLookup (t.map fun r => (f r, g r)) k).isSome := by
  induction t with
  | nil => simp at h
  | cons a t ih =>
    simp only [List.map_cons, lastLookup]
    cases hT : lastLookup (t.map fun r => (f r, g r)) k with
    | some w => simp
    | none =>
      obtain ⟨r, hr, hf⟩ := h
      rcases List.mem_cons.mp hr with rfl | hr'
      · simp [hf]
      · have := ih ⟨r, hr', hf⟩
        rw [hT] at this
        simp at this

theorem lastLookup_map_nodup {α β γ : Type} [DecidableEq α] (f : γ → α) (g : γ → β)
    (t : List γ) (hn : (t.map f).Nodup) (r : γ) (hr : r ∈ t) :
    lastLookup (t.map fun x => (f x, g x)) (f r) = some (g r) := by
  have hs := lastLookup_map_isSome f g t (f r) ⟨r, hr, rfl⟩
  cases hL : lastLookup (t.map fun x => (f x, g x)) (f r) with
  | none => rw [hL] at hs; simp at hs
  | some v =>
    obtain ⟨r', hr', hf, hg⟩ := lastLookup_map_spec f g t (f r) v hL
    have : r' = r := List.inj_on_of_nodup_map hn hr' hr hf
    subst this
    rw [hg]

/-- C3: for every alpha-2 code present in the reference table, converting the
code to its numeric id and back returns the original code; symmetrically an
alpha-3 code converted to its numeric id comes back to itself through the
built tables (`id → alpha2` composed with `alpha2 → alpha3`, the only inverse
direction the code builds). The hypotheses are the reference-table invariant
(one row per country id and per alpha-2 code). -/
theorem iso_code_round_trip (t : List IsoRow)
    (hid : (t.map (fun r => r.country_id)).Nodup)
    (ha2 : (t.map (fun r => r.country_code_alpha2)).Nodup) :
    (∀ c ∈ t.map (fun r => r.country_code_alpha2),
        (isoCodeToIdMap t c).bind (idToIsoCodeMap t) = some c)
    ∧ (∀ c ∈ t.map (fun r => r.country_code_alpha3),
        ((ISO3ToIdMap t c).bind (idToIsoCodeMap t)).bind (ISO2ToISO3Map t) = some c) := by
  constructor
  · intro c hc
    obtain ⟨r, hr, hfr⟩ := List.mem_map.mp hc
    have h1 : (isoCodeToIdMap t c).isSome :=
      lastLookup_map_isSome _ _ t c ⟨r, hr, hfr⟩
    cases hL : isoCodeToIdMap t c with
    | none => rw [hL] at h1; simp at h1
    | some v =>
      obtain ⟨r', hr', hf', hg'⟩ := lastLookup_map_spec _ _ t c v hL
      -- id of r' maps back to the alpha-2 code of r', which is c
      have h2 : idToIsoCodeMap t v = some c := by
        have h := lastLookup_map_nodup (fun r => r.country_id)
          (fun r => r.country_code_alpha2) t hid r' hr'
        simp only at h
        rw [hg'] at h
        rw [idToIsoCodeMap, h, hf']
      simp [h2]
  · intro c hc
    obtain ⟨r, hr, hfr⟩ := List.mem_map.mp hc
    have h1 : (ISO3ToIdMap t c).isSome :=
      lastLookup_map_isSome _ _ t c ⟨r, hr, hfr⟩
    cases hL : ISO3ToIdMap t c with
    | none => rw [hL] at h1; simp at h1
    | some v =>
      obtain ⟨r', hr', hf', hg'⟩ := lastLookup_map_spec _ _ t c v hL
      have h2 : idToIsoCodeMap t v = some r'.country_code_alpha2 := by
        have h := lastLookup_map_nodup (fun r => r.country_id)
          (fun r => r.country_code_alpha2) t hid r' hr'
        simp only at h
        rw [hg'] at h
        rw [idToIsoCodeMap, h]
      have h3 : ISO2ToISO3Map t r'.country_code_alpha2 = some c := by
        have h := lastLookup_map_nodup (fun r => r.country_code_alpha2)
          (fun r => r.country_code_alpha3) t ha2 r' hr'
        simp only at h
        rw [ISO2ToISO3Map, h, hf']
      simp [h2, h3]

theorem iso_code_round_trip_witness :
    (isoCodeToIdMap isoTableEx "US").bind (idToIsoCodeMap isoTableEx) = some "US"
    ∧ ((ISO3ToIdMap isoTableEx "CAN").bind (idToIsoCodeMap isoTableEx)).bind
        (ISO2ToISO3Map isoTableEx) = some "CAN" :=
  ⟨(iso_code_round_trip isoTableEx (by decide) (by decide)).1 "US" (by decide),
   (iso_code_round_trip isoTableEx (by decide) (by decide)).2 "CAN" (by decide)⟩

theorem mem_firstDedup {α : Type} [DecidableEq α] (l : List α) (x : α) :
    x ∈ firstDedup l ↔ x ∈ l := by
  induction l with
  | nil => simp [firstDedup]
  | cons a t ih =>
    simp only [firstDedup, List.mem_cons, List.mem_filter]
    constructor
    · rintro (rfl | ⟨hx, _⟩)
      · exact Or.inl rfl
      · exact Or.inr (ih.mp hx)
    · rintro (rfl | hx)
      · exact Or.inl rfl
      · by_cases hxa : x = a
        · exact Or.inl hxa
        · exact Or.inr ⟨ih.mpr hx, by simpa using hxa⟩

theorem nodup_firstDedup {α : Type} [DecidableEq α] (l : List α) :
    (firstDedup l).Nodup := by
  induction l with
  | nil => simp [firstDedup]
  | cons a t ih =>
    refine List.Nodup.cons ?_ (List.Nodup.filter _ ih)
    intro hmem
    rcases List.mem_filter.mp hmem with ⟨_, hne⟩
    simp at hne

theorem find?_map_eq {α β : Type} (l : List α) (f : α → β) (p : β → Bool) :
    (l.map f).find? p = (l.find? fun a => p (f a)).map f := by
  induction l with
  | nil => simp
  | cons a t ih =>
    by_cases h : p (f a)
    · simp [List.find?, h]
    · simp only [List.map_cons, List.find?, h]
      exact ih

theorem find?_eq_self {α : Type} [DecidableEq α] (l : List α) (k : α) :
    (l.find? fun x => x = k) = if k ∈ l then some k else none := by
  induction l with
  | nil => simp
  | cons a t ih =>
    by_cases h : a = k
    · subst h; simp [List.find?]
    · rw [List.find?_cons_of_neg _ (by simp [h]), ih]
      by_cases hk : k ∈ t
      · simp [hk]
      · simp [hk, List.mem_cons, Ne.symm h]

theorem filteredSalaryData_eq_specFiltered (data : List SalaryRow) (sel : Option String) :
    filteredSalaryData data sel = specFiltered data sel := by
  cases sel with
  | none => simp [filteredSalaryData, specFiltered]
  | some c => rfl

/-- C6: grouping the map records by resolved country id and taking the
`d3.median` of `salary_in_usd` per group is exactly what the rollup map
returns, and a country with no records is absent from the map (lookup gives
`none`, never `some 0`); the spec's concrete example is included. -/
theorem countrySalaries_median_spec :
    (∀ (rows : List MapRow) (c : ℕ),
      countrySalariesGet rows c =
        (let g := (rows.filter fun r => r.country = some c).map fun r => r.salary_in_usd
         if g.isEmpty then none else some (d3median g)))
    ∧ countrySalariesGet
        [⟨10, none, some 1, "AA"⟩, ⟨20, none, some 1, "AA"⟩, ⟨30, none, some 1, "AA"⟩,
         ⟨5, none, some 2, "BB"⟩] 1 = some 20
    ∧ countrySalariesGet
        [⟨10, none, some 1, "AA"⟩, ⟨20, none, some 1, "AA"⟩, ⟨30, none, some 1, "AA"⟩,
         ⟨5, none, some 2, "BB"⟩] 2 = some 5
    ∧ countrySalariesGet
        [⟨10, none, some 1, "AA"⟩, ⟨20, none, some 1, "AA"⟩, ⟨30, none, some 1, "AA"⟩,
         ⟨5, none, some 2, "BB"⟩] 3 = none := by
  have main : ∀ (rows : List MapRow) (c : ℕ),
      countrySalariesGet rows c =
        (let g := (rows.filter fun r => r.country = some c).map fun r => r.salary_in_usd
         if g.isEmpty then none else some (d3median g)) := by
    intro rows c
    have hfind :
        ((countrySalaries rows).find? fun kv => kv.1 = some c) =
          if some c ∈ rollupKeys rows then
            some (some c,
              d3median ((rows.filter fun r => r.country = some c).map fun r => r.salary_in_usd))
          else none := by
      rw [countrySalaries, find?_map_eq]
      simp only
      rw [find?_eq_self (rollupKeys rows) (some c)]
      by_cases hmem : some c ∈ rollupKeys rows
      · simp [hmem]
      · simp [hmem]
    have hmem_iff : (some c ∈ rollupKeys rows) ↔
        ¬((rows.filter fun r => r.country = some c).map fun r => r.salary_in_usd).isEmpty := by
      rw [rollupKeys, mem_firstDedup]
      simp only [List.mem_map, List.isEmpty_iff, Ne, List.map_eq_nil_iff]
      constructor
      · rintro ⟨r, hr, hc⟩ hnil
        have : r ∈ rows.filter fun r => r.country = some c :=
          List.mem_filter.mpr ⟨hr, by simp [hc]⟩
        rw [hnil] at this
        simp at this
      · intro hne
        rcases List.exists_mem_of_ne_nil _ (by
          intro h; exact hne h) with ⟨r, hr⟩
        rcases List.mem_filter.mp hr with ⟨hrr, hcc⟩
        exact ⟨r, hrr, by simpa using hcc⟩
    rw [countrySalariesGet, hfind]
    by_cases hmem : some c ∈ rollupKeys rows
    · rw [if_pos hmem]
      have hne := hmem_iff.mp hmem
      simp only [Option.map_some']
      rw [if_neg (by simpa using hne)]
    · rw [if_neg hmem]
      have hem : ((rows.filter fun r => r.country = some c).map
          fun r => r.salary_in_usd).isEmpty := by
        by_contra hne
        exact hmem (hmem_iff.mpr hne)
      simp only [Option.map_none']
      rw [if_pos (by simpa using hem)]
  refine ⟨main, ?_, ?_, ?_⟩
  · rw [main]; norm_num [d3median, sortAsc, insertSorted]
  · rw [main]; norm_num [d3median, sortAsc, insertSorted]
  · rw [main]; norm_num

/-- C2 (amended): histogram values and Sankey stage triples are derived from
the record subset matching the selection (equal to the spec's own filter),
but `mapData` — feeding the per-country median aggregate and the linkage
graph — is built from the unfiltered record set, independently of the
selection. -/
theorem updateDashboard_filtering (data : List SalaryRow) (t : List IsoRow)
    (sel : Option String) :
    (updateDashboard data t sel).histogramValues
        = (specFiltered data sel).map (fun r => r.salary_in_usd)
    ∧ (updateDashboard data t sel).parallelRows
        = (specFiltered data sel).map mkParallelRow
    ∧ (updateDashboard data t sel).mapRows = data.map (mkMapRow t) := by
  refine ⟨?_, ?_, rfl⟩ <;>
    simp [updateDashboard, filteredSalaryData_eq_specFiltered]

/-- C2 counterexample: with US selected, the per-country median map is NOT
computed from the matching record subset — the code's `mapData` still
contains the CA record, so CA keeps a median (50000) that the filtered
subset would not produce. -/
theorem updateDashboard_filtering_counterexample :
    (updateDashboard salaryDataTwo isoTableEx (some "US")).mapRows
        ≠ (specFiltered salaryDataTwo (some "US")).map (mkMapRow isoTableEx)
    ∧ countrySalariesGet
        ((updateDashboard salaryDataTwo isoTableEx (some "US")).mapRows) 124 = some 50000
    ∧ countrySalariesGet
        ((specFiltered salaryDataTwo (some "US")).map (mkMapRow isoTableEx)) 124 = none := by
  refine ⟨?_, ?_, ?_⟩ <;>
    simp [updateDashboard, filteredSalaryData, specFiltered, salaryDataTwo, isoTableEx,
      mkMapRow, isoCodeToIdMap, lastLookup, countrySalariesGet, countrySalaries,
      rollupKeys, firstDedup, d3median, sortAsc, insertSorted, List.find?]

/-- C10: clicking a country whose id has no entry in the per-country
median-salary map resets the selection to unset with display name "Global",
whatever was selected before. -/
theorem click_no_data_resets (t : List IsoRow) (data : List SalaryRow)
    (cid : ℕ) (s : DashState) (h : hasSalaryData t data cid = false) :
    displayMapClick t data cid s = globalState := by
  simp [displayMapClick, h]

theorem click_no_data_resets_witness :
    displayMapClick isoTableEx salaryDataOne 124
      ⟨some "US", some "United States"⟩ = globalState :=
  click_no_data_resets isoTableEx salaryDataOne 124 ⟨some "US", some "United States"⟩
    (by decide)

/-- C1 counterexample: CA (id 124) has no salary data in `salaryDataOne`,
so although the current selection (US) differs from the clicked entity, the
click does NOT transition to `set(CA)` — it resets to the unset/Global state
(CA's alpha-2 code does exist, so `set(CA)` would have been representable). -/
theorem click_toggle_rule_counterexample :
    selectedIdOf isoTableEx ⟨some "US", some "United States"⟩ ≠ some 124
    ∧ displayMapClick isoTableEx salaryDataOne 124
        ⟨some "US", some "United States"⟩ = globalState
    ∧ idToIsoCodeMap isoTableEx 124 = some "CA"
    ∧ globalState.selectedCountryIso2 ≠ some "CA" := by
  refine ⟨by decide, ?_, by decide, by decide⟩
  simp [displayMapClick, hasSalaryData, salaryDataOne, isoTableEx, mkMapRow,
    isoCodeToIdMap, lastLookup, countrySalariesGet, countrySalaries, rollupKeys,
    firstDedup, List.find?]

/-- C1 (amended): for every country that HAS salary data (is colored), the
click transition is the toggle rule — clicking it while selected yields
unset, clicking it while anything else (or nothing) is selected yields
`set(E)`; clicking such a country twice yields unset, and X, Y, X ends at
`set(X)`. (Countries without data instead reset to unset; see the
counterexample and C10.) Hypotheses are the reference-table invariant and
membership of the clicked ids in the table. -/
theorem click_toggle_rule (t : List IsoRow) (data : List SalaryRow)
    (hid : (t.map (fun r => r.country_id)).Nodup)
    (ha2 : (t.map (fun r => r.country_code_alpha2)).Nodup)
    (cidX cidY : ℕ)
    (hmemX : cidX ∈ t.map (fun r => r.country_id))
    (hdataX : hasSalaryData t data cidX = true) :
    (∀ s : DashState, selectedIdOf t s = some cidX →
        displayMapClick t data cidX s = globalState)
    ∧ (∀ s : DashState, selectedIdOf t s ≠ some cidX →
        (displayMapClick t data cidX s).selectedCountryIso2 = idToIsoCodeMap t cidX
          ∧ (idToIsoCodeMap t cidX).isSome)
    ∧ (∀ s : DashState, selectedIdOf t s ≠ some cidX →
        displayMapClick t data cidX (displayMapClick t data cidX s) = globalState)
    ∧ (cidY ∈ t.map (fun r => r.country_id) → hasSalaryData t data cidY = true →
        cidY ≠ cidX →
        (displayMapClick t data cidX (displayMapClick t data cidY
            (displayMapClick t data cidX globalState))).selectedCountryIso2
          = idToIsoCodeMap t cidX) := by
  obtain ⟨rX, hrX, hidX⟩ := List.mem_map.mp hmemX
  have hIdToIso : idToIsoCodeMap t cidX = some rX.country_code_alpha2 := by
    have h := lastLookup_map_nodup (fun r => r.country_id)
      (fun r => r.country_code_alpha2) t hid rX hrX
    simp only at h
    rw [hidX] at h
    exact h
  have hRound : isoCodeToIdMap t rX.country_code_alpha2 = some cidX := by
    have h := lastLookup_map_nodup (fun r => r.country_code_alpha2)
      (fun r => r.country_id) t ha2 rX hrX
    simp only at h
    rw [hidX] at h
    exact h
  have hOff : ∀ s : DashState, selectedIdOf t s = some cidX →
      displayMapClick t data cidX s = globalState := by
    intro s hs
    simp [displayMapClick, hdataX, hs]
  have hOn : ∀ s : DashState, selectedIdOf t s ≠ some cidX →
      displayMapClick t data cidX s =
        ⟨idToIsoCodeMap t cidX, (idToIsoCodeMap t cidX).bind (isoCodeToNameMap t)⟩ := by
    intro s hs
    simp [displayMapClick, hdataX, hs]
  refine ⟨hOff, ?_, ?_, ?_⟩
  · intro s hs
    rw [hOn s hs]
    exact ⟨rfl, by rw [hIdToIso]; rfl⟩
  · intro s hs
    rw [hOn s hs]
    apply hOff
    simp [selectedIdOf, hIdToIso, hRound]
  · intro hmemY hdataY hne
    obtain ⟨rY, hrY, hidY⟩ := List.mem_map.mp hmemY
    have hIdToIsoY : idToIsoCodeMap t cidY = some rY.country_code_alpha2 := by
      have h := lastLookup_map_nodup (fun r => r.country_id)
        (fun r => r.country_code_alpha2) t hid rY hrY
      simp only at h
      rw [hidY] at h
      exact h
    have hRoundY : isoCodeToIdMap t rY.country_code_alpha2 = some cidY := by
      have h := lastLookup_map_nodup (fun r => r.country_code_alpha2)
        (fun r => r.country_id) t ha2 rY hrY
      simp only at h
      rw [hidY] at h
      exact h
    have h1 : displayMapClick t data cidX globalState =
        ⟨idToIsoCodeMap t cidX, (idToIsoCodeMap t cidX).bind (isoCodeToNameMap t)⟩ :=
      hOn globalState (by simp [selectedIdOf, globalState])
    have h2 : displayMapClick t data cidY
        (⟨idToIsoCodeMap t cidX, (idToIsoCodeMap t cidX).bind (isoCodeToNameMap t)⟩ :
          DashState) =
        ⟨idToIsoCodeMap t cidY, (idToIsoCodeMap t cidY).bind (isoCodeToNameMap t)⟩ := by
      have hsel : selectedIdOf t
          (⟨idToIsoCodeMap t cidX, (idToIsoCodeMap t cidX).bind (isoCodeToNameMap t)⟩ :
            DashState) = some cidX := by
        simp [selectedIdOf, hIdToIso, hRound]
      simp [displayMapClick, hdataY, hsel, Ne.symm hne]
    have h3 : displayMapClick t data cidX
        (⟨idToIsoCodeMap t cidY, (idToIsoCodeMap t cidY).bind (isoCodeToNameMap t)⟩ :
          DashState) =
        ⟨idToIsoCodeMap t cidX, (idToIsoCodeMap t cidX).bind (isoCodeToNameMap t)⟩ := by
      apply hOn
      simp [selectedIdOf, hIdToIsoY, hRoundY, hne]
    rw [h1, h2, h3]

theorem click_toggle_rule_witness :
    displayMapClick isoTableEx salaryDataTwo 840
        (displayMapClick isoTableEx salaryDataTwo 840 globalState) = globalState
    ∧ (displayMapClick isoTableEx salaryDataTwo 124
          (displayMapClick isoTableEx salaryDataTwo 840 globalState)).selectedCountryIso2
        = idToIsoCodeMap isoTableEx 124 := by
  constructor
  · exact (click_toggle_rule isoTableEx salaryDataTwo (by decide) (by decide) 840 124
      (by decide) (by decide)).2.2.1 globalState (by decide)
  · have h := (click_toggle_rule isoTableEx salaryDataTwo (by decide) (by decide) 124 840
      (by decide) (by decide)).2.1
        (displayMapClick isoTableEx salaryDataTwo 840 globalState) (by decide)
    exact h.1

theorem histStep_pos (M : ℚ) : 0 < histStep M := by
  unfold histStep tickIncrement tickFactor
  split_ifs <;> positivity

theorem maxBinValue_lt (M : ℚ) (hM : 0 < M) : M < maxBinValue M := by
  have h1 : M / (30 : ℚ) ≤ (⌈M / (30 : ℚ)⌉ : ℚ) := Int.le_ceil _
  have h2 : (M / (30 : ℚ)) * 31 ≤ (⌈M / (30 : ℚ)⌉ : ℚ) * 31 := by
    apply mul_le_mul_of_nonneg_right h1
    norm_num
  unfold maxBinValue HISTOGRAM_NUM_BINS
  push_cast
  nlinarith

theorem maxBinValue_pos (M : ℚ) (hM : 0 < M) : 0 < maxBinValue M :=
  lt_trans hM (maxBinValue_lt M hM)

theorem lastBinIdx_cast (M : ℚ) (hM : 0 < M) :
    ((lastBinIdx M : ℤ)) = ⌊maxBinValue M / histStep M⌋ := by
  unfold lastBinIdx
  apply Int.toNat_of_nonneg
  apply Int.floor_nonneg.mpr
  exact le_of_lt (div_pos (maxBinValue_pos M hM) (histStep_pos M))

theorem lastBinIdx_mul_le (M : ℚ) (hM : 0 < M) :
    (lastBinIdx M : ℚ) * histStep M ≤ maxBinValue M := by
  have hs := histStep_pos M
  have h1 : ((lastBinIdx M : ℤ) : ℚ) ≤ maxBinValue M / histStep M := by
    rw [lastBinIdx_cast M hM]
    exact Int.floor_le _
  have h2 : ((lastBinIdx M : ℤ) : ℚ) * histStep M ≤ (maxBinValue M / histStep M) * histStep M :=
    mul_le_mul_of_nonneg_right h1 (le_of_lt hs)
  rw [div_mul_cancel₀ _ (ne_of_gt hs)] at h2
  exact_mod_cast h2

/-- C4 (amended): the histogram domain is `[0, ceil(M/N)*(N+1)]` and the
maximum value `M` is strictly below the domain top; every value in the
domain falls into exactly one bin. However the bin containing `M` CAN be the
final configured bin (see the counterexample), so only `M < maxBinValue` —
not the stronger final-bin claim — holds in general. -/
theorem histogram_binning (M v : ℚ) (hM : 0 < M) :
    M < maxBinValue M
    ∧ ((0 ≤ v ∧ v ≤ maxBinValue M) ↔ ∃ i, inBin M i v)
    ∧ (∀ i j, inBin M i v → inBin M j v → i = j) := by
  have hs := histStep_pos M
  have hB := maxBinValue_pos M hM
  have hKcast := lastBinIdx_cast M hM
  have hKle := lastBinIdx_mul_le M hM
  have floor_of_bin : ∀ (i : ℕ), (i : ℚ) * histStep M ≤ v →
      v < ((i : ℚ) + 1) * histStep M → ⌊v / histStep M⌋ = (i : ℤ) := by
    intro i hlo hhi
    rw [Int.floor_eq_iff]
    constructor
    · push_cast
      rw [le_div_iff₀ hs]
      exact hlo
    · push_cast
      rw [div_lt_iff₀ hs]
      linarith
  refine ⟨maxBinValue_lt M hM, ⟨?_, ?_⟩, ?_⟩
  · rintro ⟨hv0, hvB⟩
    have hfl0 : (0 : ℤ) ≤ ⌊v / histStep M⌋ :=
      Int.floor_nonneg.mpr (div_nonneg hv0 (le_of_lt hs))
    have hfl_le : ⌊v / histStep M⌋ ≤ (lastBinIdx M : ℤ) := by
      rw [hKcast]
      exact Int.floor_le_floor ((div_le_div_right hs).mpr hvB)
    by_cases hlt : (⌊v / histStep M⌋.toNat) < lastBinIdx M
    · refine ⟨⌊v / histStep M⌋.toNat, Or.inl ⟨hlt, ?_, ?_⟩⟩
      · have : ((⌊v / histStep M⌋.toNat : ℤ) : ℚ) ≤ v / histStep M := by
          rw [Int.toNat_of_nonneg hfl0]
          exact Int.floor_le _
        calc ((⌊v / histStep M⌋.toNat : ℕ) : ℚ) * histStep M
            ≤ (v / histStep M) * histStep M := by
              apply mul_le_mul_of_nonneg_right _ (le_of_lt hs)
              exact_mod_cast this
          _ = v := div_mul_cancel₀ _ (ne_of_gt hs)
      · have : v / histStep M < ((⌊v / histStep M⌋.toNat : ℤ) : ℚ) + 1 := by
          rw [Int.toNat_of_nonneg hfl0]
          exact Int.lt_floor_add_one _
        have h2 := mul_lt_mul_of_pos_right this hs
        rw [div_mul_cancel₀ _ (ne_of_gt hs)] at h2
        exact_mod_cast h2
    · have heq : (⌊v / histStep M⌋.toNat) = lastBinIdx M := by
        apply le_antisymm _ (Nat.le_of_not_lt hlt)
        have : ⌊v / histStep M⌋.toNat ≤ ((lastBinIdx M : ℤ)).toNat :=
          Int.toNat_le_toNat hfl_le
        simpa using this
      refine ⟨lastBinIdx M, Or.inr ⟨rfl, ?_, hvB⟩⟩
      have h1 : ((lastBinIdx M : ℤ) : ℚ) ≤ v / histStep M := by
        rw [← heq, Int.toNat_of_nonneg hfl0]
        exact Int.floor_le _
      have h2 := mul_le_mul_of_nonneg_right h1 (le_of_lt hs)
      rw [div_mul_cancel₀ _ (ne_of_gt hs)] at h2
      exact_mod_cast h2
  · rintro ⟨i, hi | hi⟩
    · obtain ⟨hiK, hlo, hhi⟩ := hi
      constructor
      · have : (0 : ℚ) ≤ (i : ℚ) * histStep M := by positivity
        linarith
      · have hle : ((i : ℚ) + 1) * histStep M ≤ (lastBinIdx M : ℚ) * histStep M := by
          apply mul_le_mul_of_nonneg_right _ (le_of_lt hs)
          push_cast
          have : (i : ℤ) + 1 ≤ (lastBinIdx M : ℤ) := by exact_mod_cast hiK
          exact_mod_cast this
        linarith
    · obtain ⟨hiK, hlo, hhi⟩ := hi
      have : (0 : ℚ) ≤ (i : ℚ) * histStep M := by positivity
      exact ⟨by linarith, hhi⟩
  · intro i j hi hj
    rcases hi with ⟨hiK, hilo, hihi⟩ | ⟨hiK, hilo, hihi⟩ <;>
      rcases hj with ⟨hjK, hjlo, hjhi⟩ | ⟨hjK, hjlo, hjhi⟩
    · have h1 := floor_of_bin i hilo hihi
      have h2 := floor_of_bin j hjlo hjhi
      rw [h1] at h2
      exact_mod_cast h2
    · exfalso
      have h1 := floor_of_bin i hilo hihi
      have h2 : ((lastBinIdx M : ℚ)) ≤ v / histStep M := by
        rw [le_div_iff₀ hs]
        calc ((lastBinIdx M : ℚ)) * histStep M = ((j : ℚ)) * histStep M := by rw [hjK]
          _ ≤ v := hjlo
      have h3 : (lastBinIdx M : ℤ) ≤ ⌊v / histStep M⌋ := Int.le_floor.mpr (by exact_mod_cast h2)
      rw [h1] at h3
      omega
    · exfalso
      have h1 := floor_of_bin j hjlo hjhi
      have h2 : ((lastBinIdx M : ℚ)) ≤ v / histStep M := by
        rw [le_div_iff₀ hs]
        calc ((lastBinIdx M : ℚ)) * histStep M = ((i : ℚ)) * histStep M := by
              rw [hiK]
          _ ≤ v := hilo
      have h3 : (lastBinIdx M : ℤ) ≤ ⌊v / histStep M⌋ := Int.le_floor.mpr (by exact_mod_cast h2)
      rw [h1] at h3
      omega
    · rw [hiK, hjK]

theorem histogram_binning_witness :
    (0 : ℚ) < 210 ∧ (210 : ℚ) < maxBinValue 210 :=
  ⟨by norm_num, (histogram_binning 210 0 (by norm_num)).1⟩

theorem maxBinValue_210 : maxBinValue 210 = 217 := by
  unfold maxBinValue HISTOGRAM_NUM_BINS
  have h : (⌈(210 : ℚ) / (30 : ℕ)⌉ : ℤ) = 7 := by
    rw [Int.ceil_eq_iff]
    norm_num
  rw [h]
  norm_num

theorem histStep_210 : histStep 210 = 10 := by
  have hstep0 : maxBinValue 210 / ((HISTOGRAM_NUM_BINS : ℕ) : ℚ) = 217 / 30 := by
    rw [maxBinValue_210]
    norm_num [HISTOGRAM_NUM_BINS]
  have hlog : Int.log 10 ((217 : ℚ) / 30) = 0 := by
    rw [Int.log_of_one_le_right _ (by norm_num)]
    have hfl : (⌊(217 : ℚ) / 30⌋₊ : ℕ) = 7 := by
      rw [Nat.floor_eq_iff (by norm_num)]
      norm_num
    rw [hfl]
    have : Nat.log 10 7 = 0 := by
      rw [Nat.log_eq_zero_iff]
      left
      norm_num
    rw [this]
    rfl
  unfold histStep tickIncrement tickFactor tickError
  rw [hstep0, hlog]
  norm_num

theorem lastBinIdx_210 : lastBinIdx 210 = 21 := by
  unfold lastBinIdx
  rw [maxBinValue_210, histStep_210]
  have h : (⌊(217 : ℚ) / 10⌋ : ℤ) = 21 := by
    rw [Int.floor_eq_iff]
    norm_num
  rw [h]
  rfl

/-- C4 counterexample: for salary data with maximum value 210 (configured
bin count N = 30, domain top ceil(210/30)*31 = 217, nice tick step 10), the
maximum value lies in the final configured bin [210, 217] — index 21, the
last of the 22 produced bins. The same input also refutes the idealized
reading of the claim with exactly 30 equal-width bins over [0, 217], whose
final bin starts at 217*29/30 ≤ 210. -/
theorem histogram_final_bin_counterexample :
    binIndex 210 210 = lastBinIdx 210
    ∧ inBin 210 (lastBinIdx 210) 210
    ∧ 0 < lastBinIdx 210
    ∧ maxBinValue 210 * (29 / 30) ≤ 210 ∧ (210 : ℚ) ≤ maxBinValue 210 := by
  refine ⟨?_, ?_, ?_, ?_, ?_⟩
  · unfold binIndex
    rw [lastBinIdx_210, histStep_210]
    have h : (⌊(210 : ℚ) / 10⌋ : ℤ) = 21 := by
      rw [Int.floor_eq_iff]
      norm_num
    rw [h]
    rfl
  · unfold inBin
    rw [lastBinIdx_210, histStep_210, maxBinValue_210]
    right
    norm_num
  · rw [lastBinIdx_210]
    norm_num
  · rw [maxBinValue_210]
    norm_num
  · rw [maxBinValue_210]
    norm_num

theorem lastIdxOf_get {α : Type} [DecidableEq α] :
    ∀ (l : List α) (x : α) (i : ℕ), lastIdxOf l x = some i → l.get? i = some x := by
  intro l
  induction l with
  | nil => intro x i h; simp [lastIdxOf] at h
  | cons a t ih =>
    intro x i h
    simp only [lastIdxOf] at h
    cases hT : lastIdxOf t x with
    | some k =>
      rw [hT] at h
      obtain rfl : k + 1 = i := by simpa using h
      simpa using ih x k hT
    | none =>
      rw [hT] at h
      by_cases hax : a = x
      · simp only [hax, if_pos rfl] at h
        obtain rfl : 0 = i := by simpa using h
        simp [hax]
      · simp [hax] at h

theorem lastIdxOf_isSome {α : Type} [DecidableEq α] :
    ∀ (l : List α) (x : α), x ∈ l → (lastIdxOf l x).isSome := by
  intro l
  induction l with
  | nil => intro x h; simp at h
  | cons a t ih =>
    intro x hx
    simp only [lastIdxOf]
    cases hT : lastIdxOf t x with
    | some k => simp
    | none =>
      rcases List.mem_cons.mp hx with rfl | hx'
      · simp
      · have := ih x hx'
        rw [hT] at this
        simp at this

theorem lastIdxOf_lt {α : Type} [DecidableEq α] (l : List α) (x : α) (i : ℕ)
    (h : lastIdxOf l x = some i) : i < l.length := by
  have := lastIdxOf_get l x i h
  exact (List.get?_eq_some.mp this).1

theorem lastIdxOf_inj {α : Type} [DecidableEq α] (l : List α) (x y : α) (i : ℕ)
    (hx : lastIdxOf l x = some i) (hy : lastIdxOf l y = some i) : x = y := by
  have h1 := lastIdxOf_get l x i hx
  have h2 := lastIdxOf_get l y i hy
  rw [h1] at h2
  exact Option.some.inj h2

theorem mem_sankeyLinks (data : List PRow) (e : SankeyLink) :
    e ∈ sankeyLinks data ↔
      e.source < (sankeyNodes data).length ∧ e.target < (sankeyNodes data).length
        ∧ 0 < linkWeight data e.source e.target
        ∧ e.value = linkWeight data e.source e.target := by
  unfold sankeyLinks
  simp only [List.mem_flatMap, List.mem_filterMap, List.mem_range]
  constructor
  · rintro ⟨i, hi, j, hj, hij⟩
    by_cases hw : 0 < linkWeight data i j
    · rw [if_pos hw] at hij
      obtain rfl : (⟨i, j, linkWeight data i j⟩ : SankeyLink) = e := by simpa using hij
      exact ⟨hi, hj, hw, rfl⟩
    · rw [if_neg hw] at hij
      simp at hij
  · rintro ⟨h1, h2, h3, h4⟩
    refine ⟨e.source, h1, e.target, h2, ?_⟩
    rw [if_pos h3]
    cases e
    simp only at h4
    rw [h4]

theorem filter_sankey_inner (data : List PRow) (i j : ℕ) (js : List ℕ)
    (hjs : js.Nodup) :
    ((js.filterMap fun j' =>
        if 0 < linkWeight data i j' then some (⟨i, j', linkWeight data i j'⟩ : SankeyLink)
        else none).filter fun e => e.source = i ∧ e.target = j)
    = if j ∈ js ∧ 0 < linkWeight data i j
      then [(⟨i, j, linkWeight data i j⟩ : SankeyLink)] else [] := by
  induction js with
  | nil => simp
  | cons j' js ih =>
    obtain ⟨hnotin, hjs'⟩ := List.nodup_cons.mp hjs
    simp only [List.filterMap_cons]
    by_cases hw : 0 < linkWeight data i j'
    · rw [if_pos hw]
      rw [List.filter_cons]
      by_cases hjj : j' = j
      · subst hjj
        have hpred : (decide ((⟨i, j', linkWeight data i j'⟩ : SankeyLink).source = i
            ∧ (⟨i, j', linkWeight data i j'⟩ : SankeyLink).target = j')) = true := by
          simp
        rw [if_pos hpred, ih hjs']
        have : ¬(j' ∈ js ∧ 0 < linkWeight data i j') := fun h => hnotin h.1
        rw [if_neg this, if_pos ⟨List.mem_cons_self j' js, hw⟩]
      · have hpred : (decide ((⟨i, j', linkWeight data i j'⟩ : SankeyLink).source = i
            ∧ (⟨i, j', linkWeight data i j'⟩ : SankeyLink).target = j)) = false := by
          simp [hjj]
        rw [if_neg (by simp [hjj]), ih hjs']
        by_cases hj : j ∈ js ∧ 0 < linkWeight data i j
        · rw [if_pos hj, if_pos ⟨List.mem_cons_of_mem j' hj.1, hj.2⟩]
        · rw [if_neg hj, if_neg (by
            rintro ⟨hmem, hpos⟩
            rcases List.mem_cons.mp hmem with rfl | hmem'
            · exact hjj rfl
            · exact hj ⟨hmem', hpos⟩)]
    · rw [if_neg hw, ih hjs']
      by_cases hj : j ∈ js ∧ 0 < linkWeight data i j
      · rw [if_pos hj, if_pos ⟨List.mem_cons_of_mem j' hj.1, hj.2⟩]
      · rw [if_neg hj, if_neg (by
          rintro ⟨hmem, hpos⟩
          rcases List.mem_cons.mp hmem with rfl | hmem'
          · exact hw hpos
          · exact hj ⟨hmem', hpos⟩)]

theorem filter_sankey_links (data : List PRow) (i j : ℕ)
    (hi : i < (sankeyNodes data).length) (hj : j < (sankeyNodes data).length) :
    ((sankeyLinks data).filter fun e => e.source = i ∧ e.target = j)
    = if 0 < linkWeight data i j
      then [(⟨i, j, linkWeight data i j⟩ : SankeyLink)] else [] := by
  unfold sankeyLinks
  have main : ∀ (is : List ℕ), is.Nodup →
      (((is.flatMap fun i' =>
          (List.range (sankeyNodes data).length).filterMap fun j' =>
            if 0 < linkWeight data i' j'
            then some (⟨i', j', linkWeight data i' j'⟩ : SankeyLink) else none).filter
        fun e => e.source = i ∧ e.target = j)
      = if i ∈ is ∧ 0 < linkWeight data i j
        then [(⟨i, j, linkWeight data i j⟩ : SankeyLink)] else []) := by
    intro is
    induction is with
    | nil => simp
    | cons i' is ih =>
      intro his
      obtain ⟨hnotin, his'⟩ := List.nodup_cons.mp his
      rw [List.flatMap_cons, List.filter_append, ih his']
      by_cases hii : i' = i
      · subst hii
        rw [filter_sankey_inner data i' j _ (List.nodup_range _)]
        by_cases hw : 0 < linkWeight data i' j
        · rw [if_pos ⟨List.mem_range.mpr hj, hw⟩, if_neg (fun h => hnotin h.1),
            if_pos ⟨List.mem_cons_self i' is, hw⟩]
          simp
        · rw [if_neg (fun h => hw h.2), if_neg (fun h => hw h.2),
            if_neg (fun h => hw h.2)]
          simp
      · have hfirst : ((List.range (sankeyNodes data).length).filterMap fun j' =>
            if 0 < linkWeight data i' j'
            then some (⟨i', j', linkWeight data i' j'⟩ : SankeyLink) else none).filter
            (fun e => e.source = i ∧ e.target = j) = [] := by
          rw [List.filter_eq_nil_iff]
          intro e he
          obtain ⟨j', _, hj'⟩ := List.mem_filterMap.mp he
          by_cases hw : 0 < linkWeight data i' j'
          · rw [if_pos hw] at hj'
            obtain rfl : (⟨i', j', linkWeight data i' j'⟩ : SankeyLink) = e := by
              simpa using hj'
            simp [hii]
          · rw [if_neg hw] at hj'
            simp at hj'
        rw [hfirst]
        by_cases hmm : i ∈ is ∧ 0 < linkWeight data i j
        · rw [if_pos hmm, if_pos ⟨List.mem_cons_of_mem i' hmm.1, hmm.2⟩]
          simp
        · rw [if_neg hmm, if_neg (by
            rintro ⟨hmem, hpos⟩
            rcases List.mem_cons.mp hmem with rfl | hmem'
            · exact hii rfl
            · exact hmm ⟨hmem', hpos⟩)]
          simp
  rw [main (List.range (sankeyNodes data).length) (List.nodup_range _)]
  by_cases hw : 0 < linkWeight data i j
  · rw [if_pos ⟨List.mem_range.mpr hi, hw⟩, if_pos hw]
  · rw [if_neg (fun h => hw h.2), if_neg hw]

theorem nodeIdx_inj (data : List PRow) (x y : String) (i : ℕ)
    (hx : nodeIdx data x = some i) (hy : nodeIdx data y = some i) : x = y :=
  lastIdxOf_inj _ x y i hx hy

theorem mem_sankeyNodes (data : List PRow) (x : String) :
    x ∈ sankeyNodes data ↔
      ((∃ r ∈ data, r.salaryBin = x) ∨ (∃ r ∈ data, r.experienceLevel = x)
        ∨ (∃ r ∈ data, r.workType = x)) := by
  unfold sankeyNodes
  simp [List.mem_append, mem_firstDedup, List.mem_map]

theorem nodeIdx_some_of_mem (data : List PRow) (x : String)
    (h : x ∈ sankeyNodes data) :
    ∃ i, nodeIdx data x = some i ∧ i < (sankeyNodes data).length := by
  have hs := lastIdxOf_isSome (sankeyNodes data) x h
  cases hL : nodeIdx data x with
  | none => rw [nodeIdx] at hL; rw [hL] at hs; simp at hs
  | some i => exact ⟨i, rfl, lastIdxOf_lt _ _ _ hL⟩

theorem linkWeight_stage12 (data : List PRow) (hdisj : stagesDisjoint data)
    (a b : String) (i j : ℕ)
    (ha : nodeIdx data a = some i) (hb : nodeIdx data b = some j)
    (haS : ∃ r ∈ data, r.salaryBin = a) :
    linkWeight data i j = count12 data a b := by
  unfold linkWeight count12
  have h1 : (data.filter fun r =>
      nodeIdx data r.salaryBin = some i ∧ nodeIdx data r.experienceLevel = some j)
      = data.filter fun r => r.salaryBin = a ∧ r.experienceLevel = b := by
    apply List.filter_congr
    intro r hr
    rw [decide_eq_decide]
    constructor
    · rintro ⟨h1', h2'⟩
      exact ⟨nodeIdx_inj data _ _ i h1' ha, nodeIdx_inj data _ _ j h2' hb⟩
    · rintro ⟨h1', h2'⟩
      rw [h1', h2']
      exact ⟨ha, hb⟩
  have h2 : (data.filter fun r =>
      nodeIdx data r.experienceLevel = some i ∧ nodeIdx data r.workType = some j) = [] := by
    rw [List.filter_eq_nil_iff]
    intro r hr hcon
    simp only [decide_eq_true_eq] at hcon
    have hexp : r.experienceLevel = a := nodeIdx_inj data _ _ i hcon.1 ha
    obtain ⟨rA, hrA, hA⟩ := haS
    exact hdisj.1 rA hrA r hr (by rw [hA, hexp])
  rw [h1, h2]
  simp

theorem linkWeight_stage23 (data : List PRow) (hdisj : stagesDisjoint data)
    (b c : String) (i j : ℕ)
    (hb : nodeIdx data b = some i) (hc : nodeIdx data c = some j)
    (hbS : ∃ r ∈ data, r.experienceLevel = b) :
    linkWeight data i j = count23 data b c := by
  unfold linkWeight count23
  have h1 : (data.filter fun r =>
      nodeIdx data r.salaryBin = some i ∧ nodeIdx data r.experienceLevel = some j) = [] := by
    rw [List.filter_eq_nil_iff]
    intro r hr hcon
    simp only [decide_eq_true_eq] at hcon
    have hsal : r.salaryBin = b := nodeIdx_inj data _ _ i hcon.1 hb
    obtain ⟨rB, hrB, hB⟩ := hbS
    exact hdisj.1 r hr rB hrB (by rw [hsal, hB])
  have h2 : (data.filter fun r =>
      nodeIdx data r.experienceLevel = some i ∧ nodeIdx data r.workType = some j)
      = data.filter fun r => r.experienceLevel = b ∧ r.workType = c := by
    apply List.filter_congr
    intro r hr
    rw [decide_eq_decide]
    constructor
    · rintro ⟨h1', h2'⟩
      exact ⟨nodeIdx_inj data _ _ i h1' hb, nodeIdx_inj data _ _ j h2' hc⟩
    · rintro ⟨h1', h2'⟩
      rw [h1', h2']
      exact ⟨hb, hc⟩
  rw [h1, h2]
  simp

/-- C5 (amended): under the pairwise-disjoint stage labels that the binning
functions guarantee, the Sankey node list is duplicate-free and consists of
exactly the labels occurring in the three stages (per-stage first-appearance
order, stages concatenated — NOT global first-appearance order, see the
counterexample); for every consecutive pair occurring in the data there is
exactly ONE link between the corresponding nodes, whose weight is the number
of records sharing that pair (never parallel unit-weight links); and every
link arises from an occurring stage-1→2 or stage-2→3 pair. -/
theorem sankey_flow_graph (data : List PRow) (hdisj : stagesDisjoint data) :
    ((sankeyNodes data).Nodup
      ∧ ∀ x, x ∈ sankeyNodes data ↔
          ((∃ r ∈ data, r.salaryBin = x) ∨ (∃ r ∈ data, r.experienceLevel = x)
            ∨ (∃ r ∈ data, r.workType = x)))
    ∧ (∀ a b, (∃ r ∈ data, r.salaryBin = a ∧ r.experienceLevel = b) →
        ∃ i j, nodeIdx data a = some i ∧ nodeIdx data b = some j ∧
          (sankeyLinks data).filter (fun e => e.source = i ∧ e.target = j)
            = [⟨i, j, count12 data a b⟩])
    ∧ (∀ b c, (∃ r ∈ data, r.experienceLevel = b ∧ r.workType = c) →
        ∃ i j, nodeIdx data b = some i ∧ nodeIdx data c = some j ∧
          (sankeyLinks data).filter (fun e => e.source = i ∧ e.target = j)
            = [⟨i, j, count23 data b c⟩])
    ∧ (∀ e ∈ sankeyLinks data,
        (∃ a b, nodeIdx data a = some e.source ∧ nodeIdx data b = some e.target ∧
            (∃ r ∈ data, r.salaryBin = a ∧ r.experienceLevel = b))
        ∨ (∃ b c, nodeIdx data b = some e.source ∧ nodeIdx data c = some e.target ∧
            (∃ r ∈ data, r.experienceLevel = b ∧ r.workType = c))) := by
  obtain ⟨hd12, hd13, hd23⟩ := hdisj
  refine ⟨⟨?_, mem_sankeyNodes data⟩, ?_, ?_, ?_⟩
  · -- nodes are duplicate-free
    unfold sankeyNodes
    rw [List.append_assoc]
    refine List.Nodup.append (nodup_firstDedup _)
      (List.Nodup.append (nodup_firstDedup _) (nodup_firstDedup _) ?_) ?_
    · intro x h2 h3
      rw [mem_firstDedup] at h2 h3
      obtain ⟨r, hr, hx⟩ := List.mem_map.mp h2
      obtain ⟨r', hr', hx'⟩ := List.mem_map.mp h3
      exact hd23 r hr r' hr' (hx.trans hx'.symm)
    · intro x h1 h23
      rw [mem_firstDedup] at h1
      obtain ⟨r, hr, hx⟩ := List.mem_map.mp h1
      rcases List.mem_append.mp h23 with h2 | h3
      · rw [mem_firstDedup] at h2
        obtain ⟨r', hr', hx'⟩ := List.mem_map.mp h2
        exact hd12 r hr r' hr' (hx.trans hx'.symm)
      · rw [mem_firstDedup] at h3
        obtain ⟨r', hr', hx'⟩ := List.mem_map.mp h3
        exact hd13 r hr r' hr' (hx.trans hx'.symm)
  · rintro a b ⟨r, hr, hab⟩
    obtain ⟨i, hi, hilt⟩ := nodeIdx_some_of_mem data a
      ((mem_sankeyNodes data a).mpr (Or.inl ⟨r, hr, hab.1⟩))
    obtain ⟨j, hj, hjlt⟩ := nodeIdx_some_of_mem data b
      ((mem_sankeyNodes data b).mpr (Or.inr (Or.inl ⟨r, hr, hab.2⟩)))
    refine ⟨i, j, hi, hj, ?_⟩
    rw [filter_sankey_links data i j hilt hjlt,
      linkWeight_stage12 data ⟨hd12, hd13, hd23⟩ a b i j hi hj ⟨r, hr, hab.1⟩]
    rw [if_pos ?_]
    unfold count12
    exact List.length_pos_of_mem
      (List.mem_filter.mpr ⟨hr, by simp [hab.1, hab.2]⟩)
  · rintro b c ⟨r, hr, hbc⟩
    obtain ⟨i, hi, hilt⟩ := nodeIdx_some_of_mem data b
      ((mem_sankeyNodes data b).mpr (Or.inr (Or.inl ⟨r, hr, hbc.1⟩)))
    obtain ⟨j, hj, hjlt⟩ := nodeIdx_some_of_mem data c
      ((mem_sankeyNodes data c).mpr (Or.inr (Or.inr ⟨r, hr, hbc.2⟩)))
    refine ⟨i, j, hi, hj, ?_⟩
    rw [filter_sankey_links data i j hilt hjlt,
      linkWeight_stage23 data ⟨hd12, hd13, hd23⟩ b c i j hi hj ⟨r, hr, hbc.1⟩]
    rw [if_pos ?_]
    unfold count23
    exact List.length_pos_of_mem
      (List.mem_filter.mpr ⟨hr, by simp [hbc.1, hbc.2]⟩)
  · intro e he
    obtain ⟨hs, ht, hw, hv⟩ := (mem_sankeyLinks data e).mp he
    unfold linkWeight at hw
    by_cases h1 : 0 < (data.filter fun r =>
        nodeIdx data r.salaryBin = some e.source
          ∧ nodeIdx data r.experienceLevel = some e.target).length
    · obtain ⟨r, hrmem⟩ := List.exists_mem_of_length_pos h1
      obtain ⟨hr, hpred⟩ := List.mem_filter.mp hrmem
      simp only [decide_eq_true_eq] at hpred
      exact Or.inl ⟨r.salaryBin, r.experienceLevel, hpred.1, hpred.2, r, hr, rfl, rfl⟩
    · have h2 : 0 < (data.filter fun r =>
          nodeIdx data r.experienceLevel = some e.source
            ∧ nodeIdx data r.workType = some e.target).length := by omega
      obtain ⟨r, hrmem⟩ := List.exists_mem_of_length_pos h2
      obtain ⟨hr, hpred⟩ := List.mem_filter.mp hrmem
      simp only [decide_eq_true_eq] at hpred
      exact Or.inr ⟨r.experienceLevel, r.workType, hpred.1, hpred.2, r, hr, rfl, rfl⟩

/-- C5 counterexample: the node indexing is per-stage first-appearance with
stages concatenated, not global first-appearance order over the flattened
triples as the claim states — with records (A,X,P), (B,Y,Q) the code yields
[A,B,X,Y,P,Q] while global first appearance would give [A,X,P,B,Y,Q]. -/
theorem sankey_nodes_counterexample :
    sankeyNodes [⟨"A", "X", "P"⟩, ⟨"B", "Y", "Q"⟩]
      ≠ specNodesFirstAppearance [⟨"A", "X", "P"⟩, ⟨"B", "Y", "Q"⟩]
    ∧ sankeyNodes [⟨"A", "X", "P"⟩, ⟨"B", "Y", "Q"⟩] = ["A", "B", "X", "Y", "P", "Q"]
    ∧ specNodesFirstAppearance [⟨"A", "X", "P"⟩, ⟨"B", "Y", "Q"⟩]
      = ["A", "X", "P", "B", "Y", "Q"] := by
  refine ⟨?_, ?_, ?_⟩ <;> decide

theorem sankey_flow_graph_witness :
    (∃ i j, nodeIdx sankeyTwoRecords "50k-100k" = some i
        ∧ nodeIdx sankeyTwoRecords "Senior" = some j
        ∧ (sankeyLinks sankeyTwoRecords).filter (fun e => e.source = i ∧ e.target = j)
          = [⟨i, j, count12 sankeyTwoRecords "50k-100k" "Senior"⟩])
    ∧ count12 sankeyTwoRecords "50k-100k" "Senior" = 2 :=
  ⟨(sankey_flow_graph sankeyTwoRecords (by decide)).2.1 "50k-100k" "Senior"
      ⟨⟨"50k-100k", "Senior", "remote"⟩, by decide, rfl, rfl⟩,
   by decide⟩

theorem linSum_concat (xs : List (ℚ × ℚ)) (y : ℚ × ℚ) :
    linSum (xs ++ [y]) = linSum xs +
      (match xs.getLast? with | some z => cross z y | none => 0) := by
  induction xs with
  | nil => simp [linSum]
  | cons a xs ih =>
    cases xs with
    | nil => simp [linSum]
    | cons b xs' =>
      have h1 : linSum ((a :: b :: xs') ++ [y]) = cross a b + linSum ((b :: xs') ++ [y]) := rfl
      have h2 : linSum (a :: b :: xs') = cross a b + linSum (b :: xs') := rfl
      rw [h1, ih, h2, List.getLast?_cons_cons]
      exact (add_assoc _ _ _).symm

theorem linSum_reverse (l : List (ℚ × ℚ)) : linSum l.reverse = - linSum l := by
  induction l with
  | nil => simp [linSum]
  | cons a t ih =>
    rw [List.reverse_cons, linSum_concat, ih, List.getLast?_reverse]
    cases t with
    | nil => simp [linSum]
    | cons b t' =>
      have h1 : linSum (a :: b :: t') = cross a b + linSum (b :: t') := rfl
      rw [h1]
      simp only [List.head?_cons]
      unfold cross
      ring

theorem closingTerm_reverse (l : List (ℚ × ℚ)) :
    closingTerm l.reverse = - closingTerm l := by
  unfold closingTerm
  rw [List.getLast?_reverse, List.head?_reverse]
  cases hh : l.head? <;> cases hl : l.getLast? <;>
    simp [cross] <;> ring

theorem polygonArea_reverse (l : List (ℚ × ℚ)) :
    polygonArea l.reverse = - polygonArea l := by
  unfold polygonArea
  rw [linSum_reverse, closingTerm_reverse]
  ring

theorem polyOuterArea_reverse (p : PolyRings) :
    polyOuterArea (reverseRings p) = polyOuterArea p := by
  unfold polyOuterArea reverseRings
  have h : (List.map List.reverse p).headD [] = (p.headD []).reverse := by
    cases p <;> simp
  rw [h, polygonArea_reverse, abs_neg]

theorem foldl_pick_reverse (ps : List PolyRings) :
    ∀ acc : Option (ℚ × PolyRings),
    (ps.map reverseRings).foldl pickLargest
        (acc.map fun x => (x.1, reverseRings x.2))
      = (ps.foldl pickLargest acc).map fun x => (x.1, reverseRings x.2) := by
  induction ps with
  | nil => intro acc; rfl
  | cons p ps ih =>
    intro acc
    rw [List.map_cons, List.foldl_cons, List.foldl_cons]
    have hstep : pickLargest (acc.map fun x => (x.1, reverseRings x.2)) (reverseRings p)
        = (pickLargest acc p).map fun x => (x.1, reverseRings x.2) := by
      cases acc with
      | none => simp [pickLargest, polyOuterArea_reverse]
      | some mq =>
        obtain ⟨m, q⟩ := mq
        simp only [pickLargest, Option.map_some', polyOuterArea_reverse]
        by_cases hgt : polyOuterArea p > m
        · rw [if_pos hgt, if_pos hgt]
          rfl
        · rw [if_neg hgt, if_neg hgt]
          rfl
    rw [hstep, ih]

theorem foldl_pick_spec (ps : List PolyRings) :
    ∀ q : PolyRings,
    ∃ q', ps.foldl pickLargest (some (polyOuterArea q, q))
        = some (polyOuterArea q', q')
      ∧ (q' ∈ ps ∨ q' = q) ∧ polyOuterArea q ≤ polyOuterArea q'
      ∧ ∀ p ∈ ps, polyOuterArea p ≤ polyOuterArea q' := by
  induction ps with
  | nil =>
    intro q
    exact ⟨q, rfl, Or.inr rfl, le_refl _, by simp⟩
  | cons p ps ih =>
    intro q
    rw [List.foldl_cons]
    by_cases hgt : polyOuterArea p > polyOuterArea q
    · have hstep : pickLargest (some (polyOuterArea q, q)) p
          = some (polyOuterArea p, p) := by
        simp [pickLargest, hgt]
      rw [hstep]
      obtain ⟨q', heq, hmem, hle, hmax⟩ := ih p
      refine ⟨q', heq, ?_, le_trans (le_of_lt hgt) hle, ?_⟩
      · rcases hmem with h | hq
        · exact Or.inl (List.mem_cons_of_mem p h)
        · rw [hq]
          exact Or.inl (List.mem_cons_self p ps)
      · intro p' hp'
        rcases List.mem_cons.mp hp' with rfl | hp''
        · exact hle
        · exact hmax p' hp''
    · have hstep : pickLargest (some (polyOuterArea q, q)) p
          = some (polyOuterArea q, q) := by
        simp [pickLargest, hgt]
      rw [hstep]
      obtain ⟨q', heq, hmem, hle, hmax⟩ := ih q
      refine ⟨q', heq, ?_, hle, ?_⟩
      · rcases hmem with h | hq
        · exact Or.inl (List.mem_cons_of_mem p h)
        · exact Or.inr hq
      · intro p' hp'
        rcases List.mem_cons.mp hp' with rfl | hp''
        · exact le_trans (le_of_not_lt hgt) hle
        · exact hmax p' hp''

theorem selectLargest_spec (p0 : PolyRings) (ps : List PolyRings) :
    ∃ q', selectLargest (p0 :: ps) = some q' ∧ q' ∈ p0 :: ps
      ∧ ∀ p ∈ p0 :: ps, polyOuterArea p ≤ polyOuterArea q' := by
  unfold selectLargest
  rw [List.foldl_cons]
  have hstep : pickLargest none p0 = some (polyOuterArea p0, p0) := rfl
  rw [hstep]
  obtain ⟨q', heq, hmem, hle, hmax⟩ := foldl_pick_spec ps p0
  refine ⟨q', by rw [heq]; rfl, ?_, ?_⟩
  · rcases hmem with h | hq
    · exact List.mem_cons_of_mem p0 h
    · rw [hq]
      exact List.mem_cons_self p0 ps
  · intro p hp
    rcases List.mem_cons.mp hp with rfl | hp'
    · exact hle
    · exact hmax p hp'

/-- C7 (amended): the dominant-polygon selection of `displayMap` satisfies —
(a) a single-polygon geometry selects the polygon itself; (b) the selection
commutes with per-ring vertex-order reversal (the area comparison uses the
absolute shoelace value); (c) it is invariant under reordering of the rings
PROVIDED the absolute outer areas are pairwise distinct — with ties the
first maximum wins, so reordering can change the selection (see the
counterexample). -/
theorem dominant_polygon_invariance :
    (∀ c : PolyRings, largestPolygon (Geometry.polygon c) = some c)
    ∧ (∀ ps : List PolyRings,
        largestPolygon (Geometry.multiPolygon (ps.map reverseRings))
          = (largestPolygon (Geometry.multiPolygon ps)).map reverseRings)
    ∧ (∀ ps ps' : List PolyRings, ps.Perm ps' →
        (ps.Pairwise fun p q => polyOuterArea p ≠ polyOuterArea q) →
        largestPolygon (Geometry.multiPolygon ps)
          = largestPolygon (Geometry.multiPolygon ps')) := by
  refine ⟨fun c => rfl, ?_, ?_⟩
  · intro ps
    show selectLargest (ps.map reverseRings) = (selectLargest ps).map reverseRings
    unfold selectLargest
    have h := foldl_pick_reverse ps none
    simp only [Option.map_none'] at h
    rw [h]
    cases ps.foldl pickLargest none with
    | none => rfl
    | some mq => rfl
  · intro ps ps' hperm hdist
    cases ps with
    | nil =>
      have hlen := hperm.length_eq
      simp only [List.length_nil] at hlen
      rw [List.length_eq_zero.mp hlen.symm]
    | cons p0 ps0 =>
      cases ps' with
      | nil =>
        have hlen := hperm.length_eq
        simp at hlen
      | cons q0 qs0 =>
        obtain ⟨qA, hA, hAmem, hAmax⟩ := selectLargest_spec p0 ps0
        obtain ⟨qB, hB, hBmem, hBmax⟩ := selectLargest_spec q0 qs0
        show selectLargest (p0 :: ps0) = selectLargest (q0 :: qs0)
        rw [hA, hB]
        have hABmem : qB ∈ p0 :: ps0 := hperm.mem_iff.mpr hBmem
        have hBAmem : qA ∈ q0 :: qs0 := hperm.mem_iff.mp hAmem
        have h1 : polyOuterArea qB ≤ polyOuterArea qA := hAmax qB hABmem
        have h2 : polyOuterArea qA ≤ polyOuterArea qB := hBmax qA hBAmem
        have heqarea : polyOuterArea qA = polyOuterArea qB := le_antisymm h2 h1
        by_cases heq : qA = qB
        · rw [heq]
        · exact absurd heqarea
            (List.Pairwise.forall (fun _ _ h => Ne.symm h) hdist hAmem hABmem heq)

theorem polyOuterArea_squareA : polyOuterArea squareA = 1 := by
  norm_num [squareA, polyOuterArea, polygonArea, linSum, closingTerm, cross]

theorem polyOuterArea_squareB : polyOuterArea squareB = 1 := by
  norm_num [squareB, polyOuterArea, polygonArea, linSum, closingTerm, cross]

theorem polyOuterArea_squareC : polyOuterArea squareC = 4 := by
  norm_num [squareC, polyOuterArea, polygonArea, linSum, closingTerm, cross]

/-- C7 counterexample: with two distinct rings of EQUAL absolute area the
first maximum wins, so reordering the rings changes which polygon is
selected — the claimed invariance under ring reordering fails on ties. -/
theorem dominant_polygon_tie_counterexample :
    ([squareA, squareB] : List PolyRings).Perm [squareB, squareA]
    ∧ polyOuterArea squareA = polyOuterArea squareB
    ∧ largestPolygon (Geometry.multiPolygon [squareA, squareB]) = some squareA
    ∧ largestPolygon (Geometry.multiPolygon [squareB, squareA]) = some squareB
    ∧ squareA ≠ squareB := by
  refine ⟨List.Perm.swap squareB squareA [], ?_, ?_, ?_, by decide⟩
  · rw [polyOuterArea_squareA, polyOuterArea_squareB]
  · show selectLargest [squareA, squareB] = some squareA
    unfold selectLargest
    have h1 : pickLargest none squareA = some (polyOuterArea squareA, squareA) := rfl
    have h2 : pickLargest (some (polyOuterArea squareA, squareA)) squareB
        = some (polyOuterArea squareA, squareA) := by
      show (if polyOuterArea squareB > polyOuterArea squareA
            then some (polyOuterArea squareB, squareB)
            else some (polyOuterArea squareA, squareA))
          = some (polyOuterArea squareA, squareA)
      rw [if_neg]
      rw [polyOuterArea_squareA, polyOuterArea_squareB]
      norm_num
    show ((([] : List PolyRings) ++ [squareA, squareB]).foldl pickLargest none).map
        (fun x => x.2) = some squareA
    simp only [List.nil_append, List.foldl_cons, List.foldl_nil, h1, h2]
    rfl
  · show selectLargest [squareB, squareA] = some squareB
    unfold selectLargest
    have h1 : pickLargest none squareB = some (polyOuterArea squareB, squareB) := rfl
    have h2 : pickLargest (some (polyOuterArea squareB, squareB)) squareA
        = some (polyOuterArea squareB, squareB) := by
      show (if polyOuterArea squareA > polyOuterArea squareB
            then some (polyOuterArea squareA, squareA)
            else some (polyOuterArea squareB, squareB))
          = some (polyOuterArea squareB, squareB)
      rw [if_neg]
      rw [polyOuterArea_squareA, polyOuterArea_squareB]
      norm_num
    simp only [List.foldl_cons, List.foldl_nil, h1, h2]
    rfl

theorem dominant_polygon_invariance_witness :
    largestPolygon (Geometry.multiPolygon [squareA, squareC])
      = largestPolygon (Geometry.multiPolygon [squareC, squareA]) :=
  dominant_polygon_invariance.2.2 [squareA, squareC] [squareC, squareA]
    (List.Perm.swap squareC squareA [])
    (by
      constructor
      · intro p hp
        have hps : p = squareC := by simpa using hp
        rw [hps, polyOuterArea_squareA, polyOuterArea_squareC]
        norm_num
      · constructor
        · intro p hp
          simp at hp
        · exact List.Pairwise.nil)

/-- C8: a feature whose centroid is NaN (degenerate/empty geometry) gets the
fixed fallback label position (0, 0) instead of propagating NaN, and since
such a geometry's projected screen area is NaN or at most the 1500 threshold,
its label is hidden (opacity 0) whatever the selection-dependent display
opacity would have been; both computations are total, so the failure cannot
abort drawing of the remaining features or views. -/
theorem degenerate_label_fallback (screenArea : JSNum) (displayOpacity : ℚ)
    (hdeg : screenArea = none ∨ ∃ a, screenArea = some a ∧ a ≤ 1500) :
    labelX none = 0 ∧ labelY none = 0
    ∧ labelOpacity screenArea displayOpacity = 0 := by
  refine ⟨rfl, rfl, ?_⟩
  rcases hdeg with rfl | ⟨a, rfl, ha⟩
  · rfl
  · unfold labelOpacity jsGTThreshold
    rw [if_neg]
    simp only [decide_eq_true_eq]
    exact not_lt.mpr ha

theorem degenerate_label_fallback_witness :
    labelX none = 0 ∧ labelY none = 0 ∧ labelOpacity none 1 = 0 :=
  degenerate_label_fallback none 1 (Or.inl rfl)

/-- The transition relation agrees with the click-handler function. -/
theorem clickStep_iff (t : List IsoRow) (data : List SalaryRow)
    (s : DashState) (cid : ℕ) (s' : DashState) :
    ClickStep t data s cid s' ↔ displayMapClick t data cid s = s' := by
  constructor
  · intro h
    cases h with
    | noData h1 => simp [displayMapClick, h1]
    | deselect h1 h2 => simp [displayMapClick, h1, h2]
    | select h1 h2 => simp [displayMapClick, h1, h2]
  · intro h
    subst h
    by_cases h1 : hasSalaryData t data cid = false
    · rw [click_no_data_resets t data cid s h1]
      exact ClickStep.noData h1
    · rw [Bool.not_eq_false] at h1
      by_cases h2 : selectedIdOf t s = some cid
      · have : displayMapClick t data cid s = globalState := by
          simp [displayMapClick, h1, h2]
        rw [this]
        exact ClickStep.deselect h1 h2
      · have : displayMapClick t data cid s =
            ⟨idToIsoCodeMap t cid, (idToIsoCodeMap t cid).bind (isoCodeToNameMap t)⟩ := by
          simp [displayMapClick, h1, h2]
        rw [this]
        exact ClickStep.select h1 h2

theorem clickStep_deterministic (t : List IsoRow) (data : List SalaryRow)
    (s : DashState) (cid : ℕ) (s1 s2 : DashState)
    (h1 : ClickStep t data s cid s1) (h2 : ClickStep t data s cid s2) :
    s1 = s2 := by
  cases h1 <;> cases h2 <;> first | rfl | simp_all

/-- C9: the externally observable contract is deterministic — two runs over
the same datasets, the same feature set, the same start state and the same
click sequence pass through identical selection-state sequences and produce
identical AggregatedViews (histogram values, flow links, per-country median
map, linkage counts) after every click. -/
theorem dashboard_deterministic (t : List IsoRow) (data : List SalaryRow)
    (featureIds : List ℕ) (s : DashState) (clicks : List ℕ)
    (h1 h2 : List DashState)
    (r1 : ClickRun t data s clicks h1) (r2 : ClickRun t data s clicks h2) :
    h1 = h2
    ∧ h1.map (aggregatedViewsOf data t featureIds)
      = h2.map (aggregatedViewsOf data t featureIds) := by
  have main : ∀ (cs : List ℕ) (s0 : DashState) (g1 g2 : List DashState),
      ClickRun t data s0 cs g1 → ClickRun t data s0 cs g2 → g1 = g2 := by
    intro cs
    induction cs with
    | nil =>
      intro s0 g1 g2 r1 r2
      cases r1
      cases r2
      rfl
    | cons c cs ih =>
      intro s0 g1 g2 r1 r2
      cases r1 with
      | cons hs1 hr1 =>
        cases r2 with
        | cons hs2 hr2 =>
          have hstate := clickStep_deterministic t data s0 c _ _ hs1 hs2
          subst hstate
          rw [ih _ _ _ hr1 hr2]
  have heq := main clicks s h1 h2 r1 r2
  exact ⟨heq, by rw [heq]⟩

theorem dashboard_deterministic_witness :
    ([globalState] : List DashState) = [globalState]
    ∧ [globalState].map (aggregatedViewsOf salaryDataOne isoTableEx [840, 124])
      = [globalState].map (aggregatedViewsOf salaryDataOne isoTableEx [840, 124]) :=
  dashboard_deterministic isoTableEx salaryDataOne [840, 124] globalState [124]
    [globalState] [globalState]
    (ClickRun.cons (ClickStep.noData (by decide)) (ClickRun.nil globalState))
    (ClickRun.cons (ClickStep.noData (by decide)) (ClickRun.nil globalState))
